import Mathlib

/-!
Verification of the team-synchronization GitHub Action at
`.github/actions/org-management`.  The definitions below are a shallow
embedding of `src/main.ts` (227 lines), with the bundle `dist/main.js`
holding the compiled artifact of an earlier revision (its member sync lacks
the per-item `try`/`catch` of `src/main.ts`) and a refactored TypeScript
variant (`getRepoAccess`, `matchRepoPattern` as one disjunction).

Embedding conventions: remote network calls are explicit — list fetches are
parameters, mutations are emitted as call values; whether an individual
mutating call throws is given by a failure oracle `String → Bool`; JavaScript
string operations (`endsWith`, `startsWith`, `slice(0, -1)`) are embedded on
the character lists (`String.data`) of Lean strings; the iteration of
`Object.entries(configRepos)` is embedded as a list of pattern/permission
pairs in entry order.
-/

namespace OrgSync

/-- Embedded from `src/main.ts:17,29`: the permission literals of the
`repositories` record, `'pull' | 'push' | 'admin' | 'maintain' | 'triage'`. -/
inductive Permission where
  | pull
  | push
  | admin
  | maintain
  | triage
deriving DecidableEq, Repr

/-- Embedded from `src/main.ts:14,28`: the privacy literals of a team
configuration, `'secret' | 'closed'`. -/
inductive Privacy where
  | secret
  | closed
deriving DecidableEq, Repr

/-- Embedded from `src/main.ts:24-31`, `interface TeamConfig`.  The
`repositories` field is a JavaScript `Record<string, permission>`; it is
embedded as the pattern/permission pair list that `Object.entries` yields on
it (`src/main.ts:186`), in entry order. -/
structure TeamConfig where
  name : String
  slug : String
  description : Option String
  privacy : Option Privacy
  repositories : List (String × Permission)
  members : List String
deriving Repr

/-- Embedded from `src/main.ts:219-225`, `matchRepoPattern(repoName,
pattern)`: literal `'*'` matches everything; a pattern ending in `'*'`
matches iff the name starts with `pattern.slice(0, -1)`; otherwise exact
equality.  `endsWith('*')` is embedded as the last character being `'*'` and
`startsWith`/`slice(0, -1)` as `List.isPrefixOf`/`dropLast` on the character
lists.  The same function appears compiled in `dist/main.js:201-208` and as
a single disjunction in the refactored variant at `dist/main.js:531-533`. -/
def matchRepoPattern (repoName pattern : String) : Bool :=
  if pattern = "*" then true
  else if pattern.data.getLast? = some '*' then
    List.isPrefixOf pattern.data.dropLast repoName.data
  else repoName = pattern

/-- Embedded from `dist/main.js:516-523`, `getRepoAccess(repoName,
configRepos)` — the same first-match-wins loop is inlined at
`src/main.ts:186-192`: walk the entries in order and return the first
matching entry's permission; `{ shouldHaveAccess: false, permission:
undefined }` is embedded as `none`. -/
def getRepoAccess (repoName : String) (configRepos : List (String × Permission)) :
    Option Permission :=
  match configRepos with
  | [] => none
  | (pattern, perm) :: rest =>
      if matchRepoPattern repoName pattern then some perm
      else getRepoAccess repoName rest

/-- A mutating remote call of the membership sync: `addOrUpdateMembershipForUserInOrg`
(`src/main.ts:132`) or `removeMembershipForUserInOrg` (`src/main.ts:148`). -/
inductive MemberOp where
  | add (user : String)
  | remove (user : String)
deriving DecidableEq, Repr

/-- The add delta implicit in the loop at `src/main.ts:129-142`: the
configured members whose login is not in the fetched current logins
(`includes` is exact string equality; duplicates and order preserved). -/
def toAdd (configMembers currentMemberLogins : List String) : List String :=
  configMembers.filter (fun m => decide (m ∉ currentMemberLogins))

/-- The remove delta implicit in the loop at `src/main.ts:145-158`: the
fetched current logins not contained in the configured members. -/
def toRemove (configMembers currentMemberLogins : List String) : List String :=
  currentMemberLogins.filter (fun m => decide (m ∉ configMembers))

/-- Effect of a successful `addOrUpdateMembershipForUserInOrg` call on the
remote member set; adding an existing member leaves the set unchanged. -/
def applyAdd (live : List String) (u : String) : List String :=
  if u ∈ live then live else live ++ [u]

/-- Effect of a successful `removeMembershipForUserInOrg` call on the remote
member set. -/
def applyRemove (live : List String) (u : String) : List String :=
  live.filter (fun m => decide (m ≠ u))

/-- Observable outcome of one run of `syncTeamMembers` (`src/main.ts:115-163`):
the mutating calls attempted in order, the failed calls logged by
`core.warning` (`src/main.ts:139,155`), and the resulting remote member set. -/
structure MemberSyncResult where
  attempted : List MemberOp
  diagnostics : List MemberOp
  finalLive : List String
deriving Repr

/-- Embedded from `src/main.ts:115-163`, `syncTeamMembers`: every configured
member missing from the fetched logins is attempted as an add, then every
fetched login absent from the configuration is attempted as a remove; each
call sits in its own `try`/`catch` (`src/main.ts:131-140,147-156`), so a
throwing call (the oracles `addFails`/`removeFails` say which) is logged and
skipped while the loops continue. -/
def syncTeamMembers (configMembers currentMemberLogins : List String)
    (addFails removeFails : String → Bool) : MemberSyncResult :=
  let adds := toAdd configMembers currentMemberLogins
  let rems := toRemove configMembers currentMemberLogins
  let okAdds := adds.filter (fun u => !addFails u)
  let okRems := rems.filter (fun u => !removeFails u)
  { attempted := adds.map .add ++ rems.map .remove
    diagnostics :=
      (adds.filter (fun u => addFails u)).map .add ++
      (rems.filter (fun u => removeFails u)).map .remove
    finalLive := okRems.foldl applyRemove (okAdds.foldl applyAdd currentMemberLogins) }

/-- Outcome of the compiled variant `dist/main.js:122-151` of the member
sync: calls attempted in order, the remote member set when the function
returns or throws, and whether it threw. -/
structure MemberSyncDistResult where
  attempted : List MemberOp
  finalLive : List String
  failed : Bool
deriving DecidableEq, Repr

/-- The add loop of `dist/main.js:131-140`: no `try`/`catch`, so the first
throwing `addOrUpdateMembershipForUserInOrg` call propagates and ends the
loop.  Returns the users attempted (the throwing one included), the remote
set after the successful calls, and whether a call threw. -/
def distAdds (addFails : String → Bool) :
    List String → List String → List String × List String × Bool
  | [], live => ([], live, false)
  | u :: us, live =>
      if addFails u then ([u], live, true)
      else
        let r := distAdds addFails us (applyAdd live u)
        (u :: r.1, r.2.1, r.2.2)

/-- The remove loop of `dist/main.js:142-151`: no `try`/`catch`, so the
first throwing `removeMembershipForUserInOrg` call propagates. -/
def distRemoves (removeFails : String → Bool) :
    List String → List String → List String × List String × Bool
  | [], live => ([], live, false)
  | u :: us, live =>
      if removeFails u then ([u], live, true)
      else
        let r := distRemoves removeFails us (applyRemove live u)
        (u :: r.1, r.2.1, r.2.2)

/-- Embedded from `dist/main.js:122-151`, the compiled `syncTeamMembers`:
same deltas as `src/main.ts`, but with no per-item `try`/`catch` a throwing
add aborts the remaining adds and skips the remove loop entirely. -/
def syncTeamMembersDist (configMembers currentMemberLogins : List String)
    (addFails removeFails : String → Bool) : MemberSyncDistResult :=
  let a := distAdds addFails (toAdd configMembers currentMemberLogins)
    currentMemberLogins
  if a.2.2 then
    { attempted := a.1.map .add, finalLive := a.2.1, failed := true }
  else
    let r := distRemoves removeFails (toRemove configMembers currentMemberLogins)
      a.2.1
    { attempted := a.1.map .add ++ r.1.map .remove
      finalLive := r.2.1
      failed := r.2.2 }

/-- A mutating remote call of the repository sync:
`addOrUpdateRepoPermissionsInOrg` (`src/main.ts:197-203`) or `removeRepoInOrg`
(`src/main.ts:208-213`). -/
inductive RepoOp where
  | grant (repo : String) (perm : Permission)
  | revoke (repo : String)
deriving DecidableEq, Repr

/-- The repository a repository call is about. -/
def RepoOp.repoName : RepoOp → String
  | .grant r _ => r
  | .revoke r => r

/-- The `currentRepoNames.includes(repoName)` presence test of
`src/main.ts:195,206`, evaluated on the team's fetched grant list (only the
names are consulted, never the permission level). -/
def hasGrant (grants : List (String × Permission)) (r : String) : Bool :=
  grants.any (fun g => g.1 = r)

/-- The body of the per-repository loop of `syncTeamRepositories`
(`src/main.ts:180-216`): resolve the first matching entry's permission; a
permission and no current grant → add at that permission
(`src/main.ts:194-205`); no permission but a current grant → remove
(`src/main.ts:206-215`); otherwise no call. -/
def repoDecision (configRepos : List (String × Permission))
    (current : List (String × Permission)) (repoName : String) : Option RepoOp :=
  match getRepoAccess repoName configRepos with
  | some perm =>
      if hasGrant current repoName then none else some (.grant repoName perm)
  | none =>
      if hasGrant current repoName then some (.revoke repoName) else none

/-- Embedded from `src/main.ts:165-217`, `syncTeamRepositories`: walk the
fetched organization inventory (`allRepos`) and emit, per repository, the
mutating call that the loop body dictates against the team grant list
fetched once at `src/main.ts:173-178`. -/
def syncTeamRepositories (configRepos : List (String × Permission))
    (allRepos : List String) (current : List (String × Permission)) :
    List RepoOp :=
  allRepos.filterMap (repoDecision configRepos current)

/-- Effect of one mutating repository call on the remote grant list:
`addOrUpdateRepoPermissionsInOrg` installs the permission for that
repository, `removeRepoInOrg` deletes the repository's grant. -/
def applyRepoOp (grants : List (String × Permission)) : RepoOp →
    List (String × Permission)
  | .grant r p => grants.filter (fun g => decide (g.1 ≠ r)) ++ [(r, p)]
  | .revoke r => grants.filter (fun g => decide (g.1 ≠ r))

/-- The remote grant list after a sequence of mutating repository calls. -/
def applyRepoOps (grants : List (String × Permission)) (ops : List RepoOp) :
    List (String × Permission) :=
  ops.foldl applyRepoOp grants

/-- The currently-effective permission a grant list holds on a repository. -/
def lookupGrant : List (String × Permission) → String → Option Permission
  | [], _ => none
  | g :: gs, r => if g.1 = r then some g.2 else lookupGrant gs r

/-- Team ids are numbers (`src/main.ts:79`, `Promise<{ id: number }>`). -/
abbrev TeamId := Nat

/-- Outcome of a remote team call: the returned team id, or a thrown error
carrying an HTTP status (`src/main.ts:99` inspects `error.status`). -/
inductive RemoteResult where
  | ok (id : TeamId)
  | err (status : Nat)
deriving DecidableEq, Repr

/-- A remote call issued by `createOrUpdateTeam` (`src/main.ts:82-106`):
`teams.getByName`, `teams.updateInOrg`, or `teams.create`. -/
inductive TeamCall where
  | getByName (slug : String)
  | updateInOrg (slug name : String) (description : Option String)
      (privacy : Privacy)
  | create (name : String) (description : Option String) (privacy : Privacy)
deriving DecidableEq, Repr

/-- Which team calls write remote state: `getByName` only reads, while
`updateInOrg` and `create` mutate the team. -/
def TeamCall.isMutating : TeamCall → Bool
  | .getByName _ => false
  | .updateInOrg _ _ _ _ => true
  | .create _ _ _ => true

/-- The `config.privacy || 'closed'` default of `src/main.ts:93,105`. -/
def effectivePrivacy (p : Option Privacy) : Privacy :=
  p.getD .closed

/-- Embedded from `src/main.ts:79-113`, `createOrUpdateTeam`.  The `try`
block issues `getByName` and then `updateInOrg` unconditionally; the `catch`
takes the create path when the thrown error has status 404 — whether it came
from the lookup or from the update — and rethrows otherwise.  `getResult`
and `updateResult` are the remote outcomes of the two calls in the `try`
block; `createId` is the id the platform would assign on creation.  Returns
the calls issued in order and the overall outcome. -/
def createOrUpdateTeam (getResult updateResult : RemoteResult)
    (createId : TeamId) (config : TeamConfig) : List TeamCall × RemoteResult :=
  match getResult with
  | .ok _ =>
      match updateResult with
      | .ok uid =>
          ([.getByName config.slug,
            .updateInOrg config.slug config.name config.description
              (effectivePrivacy config.privacy)], .ok uid)
      | .err s =>
          if s = 404 then
            ([.getByName config.slug,
              .updateInOrg config.slug config.name config.description
                (effectivePrivacy config.privacy),
              .create config.name config.description
                (effectivePrivacy config.privacy)], .ok createId)
          else
            ([.getByName config.slug,
              .updateInOrg config.slug config.name config.description
                (effectivePrivacy config.privacy)], .err s)
  | .err s =>
      if s = 404 then
        ([.getByName config.slug,
          .create config.name config.description
            (effectivePrivacy config.privacy)], .ok createId)
      else
        ([.getByName config.slug], .err s)

/-- C3: the pattern matcher returns true exactly when the pattern is the
literal `"*"`, or the pattern ends in `"*"` and the name starts with the
characters before the trailing `"*"`, or the name equals the pattern; a
pattern not ending in `"*"` matches only by exact equality.  The right-hand
side is also literally the single disjunction of the variant at
`dist/main.js:531-533`, so the two implementations agree. -/
theorem matchRepoPattern_spec (repoName pattern : String) :
    matchRepoPattern repoName pattern = true ↔
      (pattern = "*" ∨
       (pattern.data.getLast? = some '*' ∧ pattern.data.dropLast <+: repoName.data) ∨
       repoName = pattern) := by
  unfold matchRepoPattern
  split_ifs with h1 h2
  · simp [h1]
  · rw [ List.isPrefixOf_iff_prefix]
    constructor
    · intro hp
      exact Or.inr (Or.inl ⟨h2, hp⟩)
    · rintro (h | ⟨_, hp⟩ | h)
      · exact absurd h h1
      · exact hp
      · subst h
        exact List.dropLast_prefix _
  · simp only [decide_eq_true_eq]
    constructor
    · intro h
      exact Or.inr (Or.inr h)
    · rintro (h | ⟨h, _⟩ | h)
      · exact absurd h h1
      · exact absurd h h2
      · exact h

/-- C1: the permission resolved for a repository name is the permission of
the first entry in order whose pattern matches the name, and evaluation
stops there; in particular, for entries `[("repo-*", pull), ("repo-special",
admin)]` (the spec's `read` is the code's `pull`) and repository
`"repo-special"` the resolved permission is `pull`, never `admin`. -/
theorem getRepoAccess_firstMatch (rules pre post : List (String × Permission))
    (pat repoName : String) (perm : Permission)
    (hr : rules = pre ++ (pat, perm) :: post)
    (hpre : ∀ q ∈ pre, matchRepoPattern repoName q.1 = false)
    (hpat : matchRepoPattern repoName pat = true) :
    getRepoAccess repoName rules = some perm ∧
      getRepoAccess "repo-special"
        [("repo-*", Permission.pull), ("repo-special", Permission.admin)]
        = some Permission.pull := by
  subst hr
  refine ⟨?_, by decide⟩
  induction pre with
  | nil => simp [getRepoAccess, hpat]
  | cons q qs ih =>
      have hq : matchRepoPattern repoName q.1 = false :=
        hpre q (List.mem_cons_self q qs)
      simp only [List.cons_append, getRepoAccess, hq, Bool.false_eq_true, if_false]
      exact ih fun x hx => hpre x (List.mem_cons_of_mem q hx)

/-- C1 witness: the concrete first-match scenario from the specification. -/
theorem getRepoAccess_firstMatch_witness :
    getRepoAccess "repo-special"
      [("repo-*", Permission.pull), ("repo-special", Permission.admin)]
      = some Permission.pull :=
  (getRepoAccess_firstMatch
    [("repo-*", Permission.pull), ("repo-special", Permission.admin)]
    [] [("repo-special", Permission.admin)] "repo-*" "repo-special"
    Permission.pull rfl (by intro q hq; simp at hq) (by decide)).1

theorem mem_toAdd {u : String} {desired live : List String} :
    u ∈ toAdd desired live ↔ u ∈ desired ∧ u ∉ live := by
  simp [toAdd]

theorem mem_toRemove {u : String} {desired live : List String} :
    u ∈ toRemove desired live ↔ u ∈ live ∧ u ∉ desired := by
  simp [toRemove]

theorem mem_applyAdd {u a : String} {live : List String} :
    u ∈ applyAdd live a ↔ u ∈ live ∨ u = a := by
  unfold applyAdd
  split_ifs with h
  · constructor
    · exact Or.inl
    · rintro (h' | rfl)
      · exact h'
      · exact h
  · simp [List.mem_append]

theorem mem_foldl_applyAdd (adds live : List String) (u : String) :
    u ∈ adds.foldl applyAdd live ↔ u ∈ live ∨ u ∈ adds := by
  induction adds generalizing live with
  | nil => simp
  | cons a as ih =>
      rw [List.foldl_cons, ih, mem_applyAdd, List.mem_cons]
      tauto

theorem mem_applyRemove {u a : String} {l : List String} :
    u ∈ applyRemove l a ↔ u ∈ l ∧ u ≠ a := by
  simp [applyRemove]

theorem mem_foldl_applyRemove (rems l : List String) (u : String) :
    u ∈ rems.foldl applyRemove l ↔ u ∈ l ∧ u ∉ rems := by
  induction rems generalizing l with
  | nil => simp
  | cons r rs ih =>
      rw [List.foldl_cons, ih, mem_applyRemove, List.mem_cons]
      tauto

theorem mem_finalLive_iff (desired live : List String)
    (addFails removeFails : String → Bool) (u : String) :
    u ∈ (syncTeamMembers desired live addFails removeFails).finalLive ↔
      ((u ∈ live ∨ (u ∈ desired ∧ u ∉ live ∧ addFails u = false)) ∧
       ¬(u ∈ live ∧ u ∉ desired ∧ removeFails u = false)) := by
  simp only [syncTeamMembers]
  rw [mem_foldl_applyRemove, mem_foldl_applyAdd]
  simp only [List.mem_filter, mem_toAdd, mem_toRemove, Bool.not_eq_true',
    and_assoc]

theorem finalLive_noFail (desired live : List String) (u : String) :
    u ∈ (syncTeamMembers desired live (fun _ => false) (fun _ => false)).finalLive
      ↔ u ∈ desired := by
  rw [mem_finalLive_iff]
  by_cases hd : u ∈ desired <;> by_cases hl : u ∈ live <;> simp [hd, hl]

/-- C2: absent failed remote calls, the live member set after `syncTeamMembers`
equals exactly the configured member set (the `includes` comparison is exact
string equality), and every add call is issued before any remove call. -/
theorem syncTeamMembers_exact (desired live : List String) :
    (∀ u, u ∈ (syncTeamMembers desired live (fun _ => false) (fun _ => false)).finalLive
        ↔ u ∈ desired) ∧
    (syncTeamMembers desired live (fun _ => false) (fun _ => false)).attempted
      = (toAdd desired live).map MemberOp.add
        ++ (toRemove desired live).map MemberOp.remove :=
  ⟨finalLive_noFail desired live, rfl⟩

/-- C6 (amended): in the `src/main.ts` implementation, whose add/remove calls
each sit in their own try/catch, a failing individual call does not prevent
the remaining delta entries from being attempted; failures are recorded as
warnings, and a configured member `b` whose add succeeds ends up in the live
set even when another add fails.  (The compiled variant
`dist/main.js:122-151` lacks the try/catch and aborts instead.) -/
theorem syncTeamMembers_failureIsolation (desired live : List String)
    (addFails removeFails : String → Bool) (b : String)
    (hb : b ∈ desired) (hf : addFails b = false) :
    (∀ u ∈ toAdd desired live,
      MemberOp.add u ∈ (syncTeamMembers desired live addFails removeFails).attempted) ∧
    (∀ u ∈ toRemove desired live,
      MemberOp.remove u ∈ (syncTeamMembers desired live addFails removeFails).attempted) ∧
    (∀ u ∈ toAdd desired live, addFails u = true →
      MemberOp.add u ∈ (syncTeamMembers desired live addFails removeFails).diagnostics) ∧
    (∀ u ∈ toRemove desired live, removeFails u = true →
      MemberOp.remove u ∈ (syncTeamMembers desired live addFails removeFails).diagnostics) ∧
    b ∈ (syncTeamMembers desired live addFails removeFails).finalLive := by
  refine ⟨?_, ?_, ?_, ?_, ?_⟩
  · intro u hu
    simp only [syncTeamMembers, List.mem_append, List.mem_map]
    exact Or.inl ⟨u, hu, rfl⟩
  · intro u hu
    simp only [syncTeamMembers, List.mem_append, List.mem_map]
    exact Or.inr ⟨u, hu, rfl⟩
  · intro u hu hfail
    simp only [syncTeamMembers, List.mem_append, List.mem_map]
    exact Or.inl ⟨u, List.mem_filter.mpr ⟨hu, hfail⟩, rfl⟩
  · intro u hu hfail
    simp only [syncTeamMembers, List.mem_append, List.mem_map]
    exact Or.inr ⟨u, List.mem_filter.mpr ⟨hu, hfail⟩, rfl⟩
  · rw [mem_finalLive_iff]
    refine ⟨?_, fun h => h.2.1 hb⟩
    by_cases hl : b ∈ live
    · exact Or.inl hl
    · exact Or.inr ⟨hb, hl, hf⟩

/-- C6 witness: adding `"a"` fails, adding `"b"` succeeds, `"b"` is in the
final live set of the `src/main.ts` variant. -/
theorem syncTeamMembers_failureIsolation_witness :
    "b" ∈ (syncTeamMembers ["a", "b"] [] (fun u => u == "a")
      (fun _ => false)).finalLive :=
  (syncTeamMembers_failureIsolation ["a", "b"] [] (fun u => u == "a")
    (fun _ => false) "b" (by decide) (by decide)).2.2.2.2

/-- C6 counterexample: in the compiled variant `dist/main.js:122-151` the
failing add for `"a"` throws out of the loop, so the add for `"b"` is never
attempted and `"b"` does not end up in the live set — the claimed failure
isolation does not hold of that cited source. -/
theorem syncTeamMembersDist_abort_cex :
    (syncTeamMembersDist ["a", "b"] [] (fun u => u == "a")
      (fun _ => false)).failed = true ∧
    MemberOp.add "b" ∉ (syncTeamMembersDist ["a", "b"] [] (fun u => u == "a")
      (fun _ => false)).attempted ∧
    "b" ∉ (syncTeamMembersDist ["a", "b"] [] (fun u => u == "a")
      (fun _ => false)).finalLive := by
  decide

/-- C7 (amended): re-running the membership sync with an unchanged
configuration against the live state produced by a successful first run
computes an empty add/remove delta and attempts zero mutating member calls
(the team upsert still issues its unconditional update call each run). -/
theorem syncTeamMembers_idempotent (desired live : List String) :
    toAdd desired
      (syncTeamMembers desired live (fun _ => false) (fun _ => false)).finalLive = [] ∧
    toRemove desired
      (syncTeamMembers desired live (fun _ => false) (fun _ => false)).finalLive = [] ∧
    (syncTeamMembers desired
        (syncTeamMembers desired live (fun _ => false) (fun _ => false)).finalLive
        (fun _ => false) (fun _ => false)).attempted = [] := by
  have hA : toAdd desired
      (syncTeamMembers desired live (fun _ => false) (fun _ => false)).finalLive = [] := by
    simp only [toAdd, List.filter_eq_nil_iff]
    intro a ha
    simp [(finalLive_noFail desired live a).mpr ha]
  have hR : toRemove desired
      (syncTeamMembers desired live (fun _ => false) (fun _ => false)).finalLive = [] := by
    simp only [toRemove, List.filter_eq_nil_iff]
    intro a ha
    simp [(finalLive_noFail desired live a).mp ha]
  refine ⟨hA, hR, ?_⟩
  show (toAdd desired _).map MemberOp.add ++ (toRemove desired _).map MemberOp.remove = []
  rw [hA, hR]
  rfl

/-- C7 counterexample: on a second run with an unchanged configuration the
membership delta is empty, yet the run does not perform zero remote mutating
calls — `createOrUpdateTeam` issues its `updateInOrg` write unconditionally
(`src/main.ts:88-94`). -/
theorem secondRunUpdate_cex :
    ((createOrUpdateTeam (RemoteResult.ok 1) (RemoteResult.ok 1) 1
        { name := "Engineering", slug := "eng", description := none,
          privacy := some Privacy.closed, repositories := [],
          members := ["a"] }).1.filter TeamCall.isMutating ≠ []) ∧
    (syncTeamMembers ["a"]
        (syncTeamMembers ["a"] [] (fun _ => false) (fun _ => false)).finalLive
        (fun _ => false) (fun _ => false)).attempted = [] := by
  exact ⟨by decide, by decide⟩

/-- C10: absent failures, the final live membership depends only on the set
of distinct entries of the configured members list, and equals that set. -/
theorem syncTeamMembers_setDetermined (d₁ d₂ live : List String)
    (h : ∀ u, u ∈ d₁ ↔ u ∈ d₂) :
    (∀ u, u ∈ (syncTeamMembers d₁ live (fun _ => false) (fun _ => false)).finalLive ↔
          u ∈ (syncTeamMembers d₂ live (fun _ => false) (fun _ => false)).finalLive) ∧
    (∀ u, u ∈ (syncTeamMembers d₁ live (fun _ => false) (fun _ => false)).finalLive ↔
          u ∈ d₁) := by
  refine ⟨fun u => ?_, finalLive_noFail d₁ live⟩
  rw [finalLive_noFail, finalLive_noFail]
  exact h u

/-- C10 witness: two orderings with duplication of the same distinct entries
give the same resulting membership. -/
theorem syncTeamMembers_setDetermined_witness :
    ("b" ∈ (syncTeamMembers ["a", "b", "b"] ["c"] (fun _ => false)
        (fun _ => false)).finalLive ↔
     "b" ∈ (syncTeamMembers ["b", "a"] ["c"] (fun _ => false)
        (fun _ => false)).finalLive) :=
  (syncTeamMembers_setDetermined ["a", "b", "b"] ["b", "a"] ["c"]
    (by intro u; simp; tauto)).1 "b"

theorem hasGrant_eq_true_iff {g : List (String × Permission)} {r : String} :
    hasGrant g r = true ↔ ∃ x ∈ g, x.1 = r := by
  simp [hasGrant, List.any_eq_true]

theorem hasGrant_eq_false_iff {g : List (String × Permission)} {r : String} :
    hasGrant g r = false ↔ ∀ x ∈ g, x.1 ≠ r := by
  rw [← Bool.not_eq_true, hasGrant_eq_true_iff]
  push_neg
  rfl

theorem repoDecision_repoName {rules current : List (String × Permission)}
    {r : String} {op : RepoOp} (h : repoDecision rules current r = some op) :
    op.repoName = r := by
  rcases hga : getRepoAccess r rules with _ | p <;>
      simp only [repoDecision, hga] at h <;> split_ifs at h <;>
    first
    | exact Option.noConfusion h
    | · injection h with h'
        subst h'
        rfl

theorem mem_syncTeamRepositories {rules current : List (String × Permission)}
    {inventory : List String} {op : RepoOp} :
    op ∈ syncTeamRepositories rules inventory current ↔
      ∃ r ∈ inventory, repoDecision rules current r = some op :=
  List.mem_filterMap

theorem lookupGrant_filter_ne (g : List (String × Permission)) (r r' : String)
    (h : r ≠ r') :
    lookupGrant (g.filter (fun x => decide (x.1 ≠ r'))) r = lookupGrant g r := by
  induction g with
  | nil => rfl
  | cons x xs ih =>
      rw [List.filter_cons]
      by_cases hx' : x.1 = r'
      · have hxr : ¬x.1 = r := by
          rw [hx']
          exact fun e => h e.symm
        rw [if_neg (by simp [hx']), ih, lookupGrant, if_neg hxr]
      · rw [if_pos (by simp [hx']), lookupGrant, lookupGrant]
        by_cases hx : x.1 = r
        · rw [if_pos hx, if_pos hx]
        · rw [if_neg hx, if_neg hx, ih]

theorem lookupGrant_append (l₁ l₂ : List (String × Permission)) (r : String) :
    lookupGrant (l₁ ++ l₂) r = (lookupGrant l₁ r).or (lookupGrant l₂ r) := by
  induction l₁ with
  | nil => simp [lookupGrant]
  | cons x xs ih => by_cases hx : x.1 = r <;> simp [lookupGrant, hx, ih]

theorem lookupGrant_applyRepoOp_ne (g : List (String × Permission)) (op : RepoOp)
    (r : String) (h : op.repoName ≠ r) :
    lookupGrant (applyRepoOp g op) r = lookupGrant g r := by
  cases op with
  | grant r' p =>
      have hr : r ≠ r' := by
        intro e
        refine h ?_
        rw [e]
        rfl
      have hnil : lookupGrant [(r', p)] r = none := by
        rw [lookupGrant, if_neg (Ne.symm hr)]
        rfl
      rw [applyRepoOp, lookupGrant_append, lookupGrant_filter_ne g r r' hr, hnil,
        Option.or_none]
  | revoke r' =>
      have hr : r ≠ r' := by
        intro e
        refine h ?_
        rw [e]
        rfl
      rw [applyRepoOp, lookupGrant_filter_ne g r r' hr]

theorem lookupGrant_applyRepoOps_frame (ops : List RepoOp)
    (g : List (String × Permission)) (r : String)
    (h : ∀ op ∈ ops, op.repoName ≠ r) :
    lookupGrant (applyRepoOps g ops) r = lookupGrant g r := by
  induction ops generalizing g with
  | nil => rfl
  | cons op ops ih =>
      have step : lookupGrant (applyRepoOp g op) r = lookupGrant g r :=
        lookupGrant_applyRepoOp_ne g op r (h op (List.mem_cons_self op ops))
      have tail := ih (applyRepoOp g op)
        (fun o ho => h o (List.mem_cons_of_mem op ho))
      exact tail.trans step

theorem hasGrant_filter_ne_self (g : List (String × Permission)) (r : String) :
    hasGrant (g.filter (fun x => decide (x.1 ≠ r))) r = false := by
  rw [hasGrant_eq_false_iff]
  intro x hx
  have hd := (List.mem_filter.mp hx).2
  simpa using hd

theorem hasGrant_applyRepoOp_false (g : List (String × Permission)) (op : RepoOp)
    (r : String) (hg : hasGrant g r = false)
    (hop : ∀ p, op ≠ RepoOp.grant r p) :
    hasGrant (applyRepoOp g op) r = false := by
  cases op with
  | grant r' p =>
      have hr : r' ≠ r := by
        intro e
        exact hop p (by rw [e])
      rw [hasGrant_eq_false_iff] at hg ⊢
      intro x hx
      rcases List.mem_append.mp hx with hx' | hx'
      · exact hg x (List.mem_filter.mp hx').1
      · rcases List.mem_singleton.mp hx' with rfl
        exact hr
  | revoke r' =>
      rw [hasGrant_eq_false_iff] at hg ⊢
      intro x hx
      exact hg x (List.mem_filter.mp hx).1

theorem hasGrant_applyRepoOps_false (ops : List RepoOp)
    (g : List (String × Permission)) (r : String)
    (hgr : ∀ p, RepoOp.grant r p ∉ ops)
    (hstart : hasGrant g r = false ∨ RepoOp.revoke r ∈ ops) :
    hasGrant (applyRepoOps g ops) r = false := by
  induction ops generalizing g with
  | nil =>
      rcases hstart with h | h
      · exact h
      · exact absurd h (List.not_mem_nil _)
  | cons op ops ih =>
      have hgr' : ∀ p, RepoOp.grant r p ∉ ops :=
        fun p hp => hgr p (List.mem_cons_of_mem op hp)
      show hasGrant (applyRepoOps (applyRepoOp g op) ops) r = false
      rcases hgc : hasGrant g r with _ | _
      · refine ih (applyRepoOp g op) hgr' (Or.inl ?_)
        exact hasGrant_applyRepoOp_false g op r hgc
          (fun p e => hgr p (e ▸ List.mem_cons_self op ops))
      · rcases hstart with h | h
        · exact absurd hgc (by rw [h]; exact Bool.false_ne_true)
        · rcases List.mem_cons.mp h with he | h'
          · exact he ▸ ih (applyRepoOp g op) hgr'
              (Or.inl (he ▸ hasGrant_filter_ne_self g r))
          · exact ih (applyRepoOp g op) hgr' (Or.inr h')

theorem grant_not_mem_of_none {rules current : List (String × Permission)}
    {inventory : List String} {r : String}
    (hnone : getRepoAccess r rules = none) (p : Permission) :
    RepoOp.grant r p ∉ syncTeamRepositories rules inventory current := by
  intro hmem
  obtain ⟨x, hx, hd⟩ := List.mem_filterMap.mp hmem
  have hxr : r = x := repoDecision_repoName hd
  rw [← hxr] at hd
  simp only [repoDecision, hnone] at hd
  split_ifs at hd
  exact RepoOp.noConfusion (Option.some.inj hd)

theorem syncTeamRepositories_repoName_mem {rules current : List (String × Permission)}
    {inventory : List String} {op : RepoOp}
    (h : op ∈ syncTeamRepositories rules inventory current) :
    op.repoName ∈ inventory := by
  obtain ⟨x, hx, hd⟩ := List.mem_filterMap.mp h
  rw [repoDecision_repoName hd]
  exact hx

/-- C4: a repository of the inventory that matches no configured pattern
loses any grant the team holds on it (a remove call is issued and the
resulting grant list no longer covers it), and receives no grant when the
team holds none. -/
theorem syncTeamRepositories_unmatched (rules current : List (String × Permission))
    (inventory : List String) (r : String)
    (hinv : r ∈ inventory) (hnone : getRepoAccess r rules = none) :
    (hasGrant current r = true →
      RepoOp.revoke r ∈ syncTeamRepositories rules inventory current) ∧
    (hasGrant current r = false →
      ∀ op ∈ syncTeamRepositories rules inventory current, op.repoName ≠ r) ∧
    hasGrant (applyRepoOps current (syncTeamRepositories rules inventory current)) r
      = false := by
  refine ⟨?_, ?_, ?_⟩
  · intro hg
    exact List.mem_filterMap.mpr ⟨r, hinv, by simp [repoDecision, hnone, hg]⟩
  · intro hg op hop e
    obtain ⟨x, hx, hd⟩ := List.mem_filterMap.mp hop
    have hxr : x = r := by
      rw [← repoDecision_repoName hd]
      exact e
    rw [hxr] at hd
    simp [repoDecision, hnone, hg] at hd
  · refine hasGrant_applyRepoOps_false _ current r
      (fun p => grant_not_mem_of_none hnone p) ?_
    rcases hgc : hasGrant current r with _ | _
    · exact Or.inl rfl
    · exact Or.inr
        (List.mem_filterMap.mpr ⟨r, hinv, by simp [repoDecision, hnone, hgc]⟩)

/-- C4 witness: repository `"x"` matches no pattern and loses its grant;
concretely the final grant list no longer covers it. -/
theorem syncTeamRepositories_unmatched_witness :
    hasGrant (applyRepoOps [("x", Permission.admin)]
      (syncTeamRepositories [] ["x", "y"] [("x", Permission.admin)])) "x"
      = false :=
  (syncTeamRepositories_unmatched [] [("x", Permission.admin)] ["x", "y"] "x"
    (by decide) rfl).2.2

/-- C5: a repository that matches some pattern and on which the team already
holds any grant is left untouched: no mutating call names it and its
existing permission level is preserved even when it differs from the
matched entry's permission. -/
theorem syncTeamRepositories_keepExisting (rules current : List (String × Permission))
    (inventory : List String) (r : String) (p : Permission)
    (hinv : r ∈ inventory) (hsome : getRepoAccess r rules = some p)
    (hgrant : hasGrant current r = true) :
    repoDecision rules current r = none ∧
    (∀ op ∈ syncTeamRepositories rules inventory current, op.repoName ≠ r) ∧
    lookupGrant (applyRepoOps current (syncTeamRepositories rules inventory current)) r
      = lookupGrant current r := by
  have hdec : repoDecision rules current r = none := by
    simp [repoDecision, hsome, hgrant]
  have hframe : ∀ op ∈ syncTeamRepositories rules inventory current,
      op.repoName ≠ r := by
    intro op hop e
    obtain ⟨x, hx, hd⟩ := List.mem_filterMap.mp hop
    have hxr : x = r := by
      rw [← repoDecision_repoName hd]
      exact e
    rw [hxr, hdec] at hd
    exact Option.noConfusion hd
  exact ⟨hdec, hframe, lookupGrant_applyRepoOps_frame _ current r hframe⟩

/-- C5 witness: an existing `admin` grant on `"x"` stays `admin` although
the matching entry says `pull`. -/
theorem syncTeamRepositories_keepExisting_witness :
    lookupGrant (applyRepoOps [("x", Permission.admin)]
      (syncTeamRepositories [("x", Permission.pull)] ["x"]
        [("x", Permission.admin)])) "x"
      = lookupGrant [("x", Permission.admin)] "x" :=
  (syncTeamRepositories_keepExisting [("x", Permission.pull)]
    [("x", Permission.admin)] ["x"] "x" Permission.pull
    (by decide) (by decide) (by decide)).2.2

/-- C9: the repository sync mutates grants only for names present in the
fetched inventory: a name outside the inventory is named by no mutating
call and its grant (or absence of one) is preserved. -/
theorem syncTeamRepositories_inventoryFrame (rules current : List (String × Permission))
    (inventory : List String) (r : String) (h : r ∉ inventory) :
    (∀ op ∈ syncTeamRepositories rules inventory current, op.repoName ≠ r) ∧
    lookupGrant (applyRepoOps current (syncTeamRepositories rules inventory current)) r
      = lookupGrant current r := by
  have hframe : ∀ op ∈ syncTeamRepositories rules inventory current,
      op.repoName ≠ r := by
    intro op hop e
    exact h (e ▸ syncTeamRepositories_repoName_mem hop)
  exact ⟨hframe, lookupGrant_applyRepoOps_frame _ current r hframe⟩

/-- C9 witness: a grant on `"y"`, absent from the inventory, survives a run
whose catch-all pattern would otherwise cover it. -/
theorem syncTeamRepositories_inventoryFrame_witness :
    lookupGrant (applyRepoOps [("y", Permission.pull)]
      (syncTeamRepositories [("*", Permission.admin)] ["x"]
        [("y", Permission.pull)])) "y"
      = lookupGrant [("y", Permission.pull)] "y" :=
  (syncTeamRepositories_inventoryFrame [("*", Permission.admin)]
    [("y", Permission.pull)] ["x"] "y" (by decide)).2

/-- C8 (amended): when the lookup throws 404 and the configuration leaves
privacy unspecified, the team is created with the desired name and
description and with privacy `closed` — the default of
`config.privacy || 'closed'` — and the creation result supplies the team
id. -/
theorem createOrUpdateTeam_notFound (config : TeamConfig)
    (updateResult : RemoteResult) (createId : TeamId)
    (hvis : config.privacy = none) :
    createOrUpdateTeam (.err 404) updateResult createId config =
      ([.getByName config.slug,
        .create config.name config.description Privacy.closed],
        .ok createId) := by
  simp [createOrUpdateTeam, effectivePrivacy, hvis]

/-- C8 witness: a concrete configuration with unspecified privacy. -/
theorem createOrUpdateTeam_notFound_witness :
    createOrUpdateTeam (.err 404) (.ok 0) 7
      { name := "Engineering", slug := "eng", description := some "d",
        privacy := none, repositories := [], members := [] } =
      ([.getByName "eng", .create "Engineering" (some "d") Privacy.closed],
        .ok 7) :=
  createOrUpdateTeam_notFound _ _ _ rfl

/-- C8 counterexample: with the lookup throwing 404 and privacy unspecified,
the create call carries privacy `closed` — the org-visible member of the
code's `{secret, closed}` enum — not the restricted member `secret`, so the
claimed `restricted` default does not hold of the code. -/
theorem createOrUpdateTeam_default_cex :
    ((createOrUpdateTeam (.err 404) (.ok 0) 7
        { name := "Engineering", slug := "eng", description := some "d",
          privacy := none, repositories := [], members := [] }).1 =
      [TeamCall.getByName "eng",
       TeamCall.create "Engineering" (some "d") Privacy.closed]) ∧
    Privacy.closed ≠ Privacy.secret := by
  exact ⟨rfl, by decide⟩

end OrgSync
